import Mathlib

/-!
Shallow embedding of the Manual-Simplifier server (`server.js`, the express
backend): the batch/retry orchestrator `processChunksInBatches`, the merge step
`mergeProcessedChunks`, the in-memory `vectorStore` (`addChunk`, `clear`,
`search`), and the `/upload` and `/search` handlers.

Modelling conventions, in source order:

* JS strings are modelled as `List Char`.  JS `toLowerCase`, `split(' ')`,
  `trim`, `includes` and `length` are given structural Lean counterparts so
  that every definition evaluates inside the kernel.  Lengths count characters
  (the JS originals count UTF-16 code units; these agree on the ASCII texts the
  server manipulates).
* JS numbers are modelled exactly, not by floats: a score is either `NaN` or a
  fraction `n / d` kept as an unnormalised `Int`/`Nat` pair (`JSNum.num n d`,
  every fraction the model builds has `0 < d`).  IEEE-754 rounding is not
  modelled; all arithmetic the server performs on scores is exact on small
  fractions.  A valuation `JSNum.val : JSNum → Option ℚ` interprets
  scores as rational numbers for specification-level statements.
* The network is modelled by an oracle `Nat → Nat → AttemptOutcome` giving, for
  each chunk position and attempt number, the outcome of that `fetch`: an HTTP
  429 (`rateLimited`), any other error thrown inside the `try` block
  (`failure msg`: non-ok status, JSON-extraction or parse failure), or a
  successfully parsed extraction (`ok r`).  `Promise.all` collects results in
  array order and rejects when some promise rejects; since the model is
  deterministic the rejection surfaced is the first one in index order.
  `delay` calls only affect timing and have no state effect, so they are not
  modelled.
* A function that can throw returns `Except String _` or `Option _`; `.error` /
  `none` means the JS original throws and the enclosing express handler answers
  with its catch-branch (HTTP 500).
* `new RegExp(term, "g")` match counting is modelled on the fragment where
  `term` contains no regular-expression metacharacter, in which case the
  regex denotes the literal string and the match count is the
  left-to-right non-overlapping occurrence count.  A term containing a
  metacharacter is modelled as a failure (`none`); this is exact for terms that
  are invalid regex syntax and therefore make `new RegExp` throw, such as
  `"c++"` or `"((("` (a quantifier with nothing to repeat, an unterminated
  group), and those are the only non-literal terms any theorem below touches.
* The single-threaded node event loop interleaves two requests only at `await`
  points.  The `/upload` handler is therefore modelled as the sequence of
  store states visible at its suspension points (`uploadVisibleStates`), and a
  concurrent `/search` reads one of those states atomically
  (`observeSearch`: its pre-`fetch` part is synchronous).
-/

/-- Source constant `MAX_RETRIES = 3`: total attempt budget per chunk. -/
def MAX_RETRIES : Nat := 3

/-- Source constant `BATCH_SIZE = 2`: chunks per concurrently-dispatched batch.
The delay constants (`RETRY_DELAY`, `RATE_LIMIT_DELAY`) only affect timing and
do not appear in the state model. -/
def BATCH_SIZE : Nat := 2

/-- One per-chunk structured extraction, the parsed JSON object
`{key_points, warnings, steps}` produced by a successful Gemini call.  The
model takes the three fields to be always-present arrays (an absent field
behaves like an empty one in the merge step, which guards each push with a
truthiness test). -/
structure ExtractionResult where
  key_points : List String
  warnings : List String
  steps : List String
deriving DecidableEq

/-- Merged document produced by `mergeProcessedChunks`. -/
structure AggregateDocument where
  title : String
  prerequisites : List String
  warnings : List String
  steps : List String
deriving DecidableEq

/-- Embeds `[...new Set(arr)]`: traverse left to right and keep an element iff
it was not inserted before, i.e. deduplicate by (exact, case-sensitive) string
equality keeping first occurrences in order.  `seen` is the set built so far. -/
def setDedupGo (seen : List String) : List String → List String
  | [] => []
  | a :: rest => if a ∈ seen then setDedupGo seen rest else a :: setDedupGo (a :: seen) rest

/-- Deduplication of a whole array, `[...new Set(arr)]`. -/
def setDedup (l : List String) : List String := setDedupGo [] l

/-- Embeds `mergeProcessedChunks`: push every chunk's `key_points` into
`prerequisites`, `warnings` into `warnings`, `steps` into `steps` (a left fold
of array pushes), then remove duplicates via `Set`, with the fixed title. -/
def mergeProcessedChunks (processedChunks : List ExtractionResult) : AggregateDocument :=
  { title := "Technical Manual Summary"
    prerequisites := setDedup (processedChunks.foldl (fun acc c => acc ++ c.key_points) [])
    warnings := setDedup (processedChunks.foldl (fun acc c => acc ++ c.warnings) [])
    steps := setDedup (processedChunks.foldl (fun acc c => acc ++ c.steps) []) }

/-- Outcome of one `fetch` attempt for one chunk, as the retry loop
distinguishes them: HTTP 429, any other thrown error (with its message), or a
successfully parsed extraction. -/
inductive AttemptOutcome where
  | rateLimited : AttemptOutcome
  | failure : String → AttemptOutcome
  | ok : ExtractionResult → AttemptOutcome

/-- Embeds the `while (retries < MAX_RETRIES && !success)` loop body of
`processChunksInBatches` for one chunk.  `outcomes a` is the result of the
attempt made when `retries = a`; `fuel = MAX_RETRIES - retries` counts the
remaining loop iterations.  A 429 increments `retries` and continues; any
other error increments `retries` and rethrows once `retries` reaches
`MAX_RETRIES`; success returns the parsed data.  Falling out of the loop with
`success` still false returns JS `undefined`, modelled as `Except.ok none`. -/
def runChunkGo (outcomes : Nat → AttemptOutcome) (retries : Nat) :
    Nat → Except String (Option ExtractionResult)
  | 0 => .ok none
  | fuel + 1 =>
    match outcomes retries with
    | .ok data => .ok (some data)
    | .rateLimited => runChunkGo outcomes (retries + 1) fuel
    | .failure msg =>
      if retries + 1 = MAX_RETRIES then
        .error ("Failed to process chunk after 3 attempts: " ++ msg)
      else
        runChunkGo outcomes (retries + 1) fuel

/-- Full retry loop for one chunk, starting at `retries = 0`. -/
def runChunkAttempts (outcomes : Nat → AttemptOutcome) : Except String (Option ExtractionResult) :=
  runChunkGo outcomes 0 MAX_RETRIES

/-- Embeds `Promise.all(batch.map(async (chunk, index) => ...))`: run the retry
loop for each chunk of the batch (chunk at offset `j` in a batch starting at
global index `i` uses oracle index `i + j`), collecting the settled values in
array order; if some promise rejects the whole batch rejects. -/
def runBatch (oracle : Nat → Nat → AttemptOutcome) :
    Nat → List (List Char) → Except String (List (Option ExtractionResult))
  | _, [] => .ok []
  | i, _ :: rest =>
    match runChunkAttempts (oracle i) with
    | .error e => .error e
    | .ok r =>
      match runBatch oracle (i + 1) rest with
      | .error e => .error e
      | .ok rs => .ok (r :: rs)

/-- Embeds the batch loop of `processChunksInBatches` from global chunk index
`start`: take `slice` of `BATCH_SIZE = 2` chunks, await the batch, append
`batchResults.filter(Boolean)` (which drops `undefined` results), and recurse
on the rest.  The two-element case split is `chunks.slice(batchStart,
batchEnd)` specialised to `BATCH_SIZE = 2`. -/
def processFrom (oracle : Nat → Nat → AttemptOutcome) :
    Nat → List (List Char) → Except String (List ExtractionResult)
  | _, [] => .ok []
  | start, [_c] =>
    match runBatch oracle start [_c] with
    | .error e => .error e
    | .ok rs => .ok (rs.filterMap id)
  | start, _c1 :: _c2 :: rest =>
    match runBatch oracle start [_c1, _c2] with
    | .error e => .error e
    | .ok rs =>
      match processFrom oracle (start + 2) rest with
      | .error e => .error e
      | .ok tail => .ok (rs.filterMap id ++ tail)

/-- Embeds `processChunksInBatches(chunks, apiKey)`.  The remote service's
behaviour is the `oracle` argument; the API key only selects the remote
endpoint and is dropped. -/
def processChunksInBatches (chunks : List (List Char))
    (oracle : Nat → Nat → AttemptOutcome) : Except String (List ExtractionResult) :=
  processFrom oracle 0 chunks

/-- The value the retry loop settles for the chunk at global index `k`:
`some r` when an attempt succeeds, `none` both when the loop exhausts its
budget on 429s (JS `undefined`) and when it throws (the thrown case never
contributes to a successful batch). -/
def chunkResult (oracle : Nat → Nat → AttemptOutcome) (k : Nat) : Option ExtractionResult :=
  match runChunkAttempts (oracle k) with
  | .ok r => r
  | .error _ => none

/-- Embeds JS `query.toLowerCase()` (ASCII case folding). -/
def toLowerChars (l : List Char) : List Char := l.map Char.toLower

/-- Worker for `splitOnSpace`; `cur` holds the current field reversed. -/
def splitOnSpaceGo (cur : List Char) : List Char → List (List Char)
  | [] => [cur.reverse]
  | c :: rest =>
    if c = ' ' then cur.reverse :: splitOnSpaceGo [] rest
    else splitOnSpaceGo (c :: cur) rest

/-- Embeds JS `str.split(' ')`: split at every space character (U+0020) only,
keeping empty fields; `"".split(' ')` is `[""]`. -/
def splitOnSpace (l : List Char) : List (List Char) := splitOnSpaceGo [] l

/-- Embeds JS `str.trim()`: remove leading and trailing whitespace. -/
def trimChars (l : List Char) : List Char :=
  ((l.dropWhile (fun c => c.isWhitespace)).reverse.dropWhile (fun c => c.isWhitespace)).reverse

/-- Does `needle` occur at the front of `hay`? -/
def startsWithChars : List Char → List Char → Bool
  | [], _ => true
  | _ :: _, [] => false
  | a :: as, b :: bs => a = b && startsWithChars as bs

/-- Embeds JS `hay.includes(needle)`: does `needle` occur contiguously in
`hay`?  (`includes("")` is `true`.) -/
def containsSeq (needle : List Char) : List Char → Bool
  | [] => needle.isEmpty
  | c :: rest => startsWithChars needle (c :: rest) || containsSeq needle rest

/-- Worker for `countOcc` with explicit fuel (one unit per step; `hay.length`
units suffice because every step consumes at least one character of `hay`). -/
def countOccGo (needle : List Char) : Nat → List Char → Nat
  | 0, _ => 0
  | _, [] => 0
  | fuel + 1, c :: rest =>
    if startsWithChars needle (c :: rest) then
      1 + countOccGo needle fuel ((c :: rest).drop needle.length)
    else
      countOccGo needle fuel rest

/-- Left-to-right non-overlapping occurrence count of a (nonempty) `needle` in
`hay`: the number of matches a global literal regex reports. -/
def countOcc (needle hay : List Char) : Nat := countOccGo needle hay.length hay

/-- The characters with special meaning in a JS regular expression (outside
character classes). -/
def regexMetaChars : List Char :=
  ['\\', '^', '$', '.', '|', '?', '*', '+', '(', ')', '[', ']', '\x7b', '\x7d']

/-- A character a regex treats as a literal. -/
def isRegexSafeChar (c : Char) : Bool := !(regexMetaChars.contains c)

/-- A term whose regex compilation denotes the literal string. -/
def isRegexSafeTok (t : List Char) : Bool := t.all isRegexSafeChar

/-- Embeds `(text.match(new RegExp(term, 'g')) || []).length`, on the fragment
described in the header: a metacharacter-free `term` compiles to the literal
matcher and the global match count is the non-overlapping occurrence count
(for the empty pattern the JS count is `text.length + 1`); a `term` containing
a metacharacter is modelled as a failure.  This is exact for every term a
theorem below evaluates: the failing instances (`"c++"`, `"((("`) are invalid
regex syntax, so `new RegExp` throws on them. -/
def regexCountG (term text : List Char) : Option Nat :=
  if isRegexSafeTok term then
    if term.isEmpty then some (text.length + 1) else some (countOcc term text)
  else none

/-- A JS number as the server's scoring produces them: `NaN`, or the exact
fraction `n / d` (unnormalised; every fraction built below has `0 < d`). -/
inductive JSNum where
  | nan : JSNum
  | num : Int → Nat → JSNum
deriving DecidableEq

/-- Valuation of a score into `ℚ` (`NaN` has no rational value). -/
def JSNum.val : JSNum → Option ℚ
  | .nan => none
  | .num n d => some ((n : ℚ) / (d : ℚ))

/-- Total rational reading of a score used by specification-side ranking
(`NaN` never reaches a ranking comparison; it is mapped to `0`). -/
def valQ : JSNum → ℚ
  | .nan => 0
  | .num n d => (n : ℚ) / (d : ℚ)

/-- JS addition on scores: `NaN` absorbs. -/
def jsAdd : JSNum → JSNum → JSNum
  | .num a b, .num c d => .num (a * d + c * b) (b * d)
  | _, _ => .nan

/-- JS multiplication on scores: `NaN` absorbs (`0 * NaN` is `NaN`). -/
def jsMul : JSNum → JSNum → JSNum
  | .num a b, .num c d => .num (a * c) (b * d)
  | _, _ => .nan

/-- JS division of the two naturals `uniqueTermsFound / searchTerms.length`.
When the divisor is `0` the dividend at this call site is also `0` and JS
`0 / 0` is `NaN`. -/
def jsDivNat (a b : Nat) : JSNum := if b = 0 then .nan else .num a b

/-- Embeds the filter `item.score > 0`: false for `NaN`, and for a fraction
with positive denominator equivalent to a positive value. -/
def jsGtZero : JSNum → Bool
  | .nan => false
  | .num n _ => decide (0 < n)

/-- Numeric comparison `x ≤ y` on scores by cross-multiplication (valid for
positive denominators).  The comparator never meets `NaN` (filtered out
before sorting); those cases answer `true`, i.e. compare as equal. -/
def jsLeNum : JSNum → JSNum → Bool
  | .num a b, .num c d => decide (a * (d : Int) ≤ c * (b : Int))
  | _, _ => true

/-- One stored chunk of `vectorStore.chunks`: `{text, page, embedding}`. -/
structure StoredChunk where
  text : List Char
  page : Nat
  embedding : List JSNum
deriving DecidableEq

/-- One scored search result.  The intermediate `{chunk, page, score}` objects
and the final `{text, page, score}` objects of `search` carry the same three
components, so one record models both. -/
structure SearchHit where
  text : List Char
  page : Nat
  score : JSNum
deriving DecidableEq

/-- The `vectorStore.metadata` record. -/
structure StoreMetadata where
  currentFileName : List Char
  pageCount : Nat
  totalChunks : Nat
deriving DecidableEq

/-- The whole mutable `vectorStore` object. -/
structure VectorStoreState where
  chunks : List StoredChunk
  embeddings : List (List JSNum)
  metadata : StoreMetadata
deriving DecidableEq

/-- Embeds `query.toLowerCase().split(' ').filter(term => term.length > 2)`. -/
def searchTermsOf (query : List Char) : List (List Char) :=
  (splitOnSpace (toLowerChars query)).filter (fun t => 2 < t.length)

/-- Embeds the term-frequency loop `searchTerms.forEach(term => score +=
termCount)`, accumulating into `acc`; the first term whose regex model fails
aborts (the JS loop throws out of `search`). -/
def termFrequencyGo (text : List Char) (acc : Int) : List (List Char) → Option Int
  | [] => some acc
  | t :: rest =>
    match regexCountG t text with
    | none => none
    | some n => termFrequencyGo text (acc + n) rest

/-- Embeds the per-chunk score computation of `vectorStore.search`: term
frequency, times the unique-terms fraction, plus `0.5` per term contained in
the (lower-cased) previous chunk (`prevLow`, `none` for the first chunk).
`lowText` is the lower-cased chunk text. -/
def chunkScore (terms : List (List Char)) (lowText : List Char)
    (prevLow : Option (List Char)) : Option JSNum :=
  match termFrequencyGo lowText 0 terms with
  | none => none
  | some tf =>
    let uniq : Nat := (terms.filter (fun t => containsSeq t lowText)).length
    let base : JSNum := jsMul (.num tf 1) (jsDivNat uniq terms.length)
    let bonus : Nat :=
      match prevLow with
      | none => 0
      | some p => (terms.filter (fun t => containsSeq t p)).length
    some (jsAdd base (.num bonus 2))

/-- Embeds `this.chunks.map(chunk => ...)` of `search`: score every stored
chunk in order, passing each chunk's lower-cased text as the next chunk's
`prevLow` (the source looks it up via `indexOf`, which under object identity
is the chunk's position). -/
def scoreChunks (terms : List (List Char)) (prevLow : Option (List Char)) :
    List StoredChunk → Option (List SearchHit)
  | [] => some []
  | c :: rest =>
    match chunkScore terms (toLowerChars c.text) prevLow with
    | none => none
    | some s =>
      match scoreChunks terms (some (toLowerChars c.text)) rest with
      | none => none
      | some tail => some ({ text := c.text, page := c.page, score := s } :: tail)

/-- Stable insertion into a list sorted by descending score: `x` stays before
`y` exactly when `y.score ≤ x.score` (so on a tie the earlier element stays
first). -/
def insertByScore (x : SearchHit) : List SearchHit → List SearchHit
  | [] => [x]
  | y :: rest => if jsLeNum y.score x.score then x :: y :: rest else y :: insertByScore x rest

/-- Embeds `.sort((a, b) => b.score - a.score)`: ECMAScript requires a stable
sort, and any stable descending-by-score sort computes the same list; the
model uses stable insertion sort (which consumes the input right to left, so
`insertByScore` meets later-arrived elements already placed). -/
def sortByScore : List SearchHit → List SearchHit
  | [] => []
  | x :: rest => insertByScore x (sortByScore rest)

/-- Embeds `vectorStore.search(query, topK)`: tokenize, score every chunk,
drop scores not `> 0`, sort by descending score, truncate to `topK`.  `none`
models the regex exception escaping `search`. -/
def vectorSearch (chunks : List StoredChunk) (query : List Char) (topK : Nat) :
    Option (List SearchHit) :=
  match scoreChunks (searchTermsOf query) none chunks with
  | none => none
  | some scored => some ((sortByScore (scored.filter (fun it => jsGtZero it.score))).take topK)

/-- Embeds `vectorStore.addChunk(chunk, embedding, pageNum)`. -/
def addChunk (s : VectorStoreState) (text : List Char) (embedding : List JSNum)
    (pageNum : Nat) : VectorStoreState :=
  { s with
    chunks := s.chunks ++ [{ text := text, page := pageNum, embedding := embedding }]
    embeddings := s.embeddings ++ [embedding] }

/-- The store right after `vectorStore.clear()`. -/
def clearedStore : VectorStoreState :=
  { chunks := [], embeddings := [], metadata := { currentFileName := [], pageCount := 0, totalChunks := 0 } }

/-- Embeds the `/upload` page-chunk policy: keep a sentence fragment iff its
trimmed length is `> 50`, and store the trimmed text
(`.filter(chunk => chunk.trim().length > 50).map(chunk => chunk.trim())`). -/
def keptPageChunks (fragments : List (List Char)) : List (List Char) :=
  (fragments.filter (fun c => 50 < (trimChars c).length)).map (fun c => trimChars c)

/-- Embeds the `pageChunks.forEach(... addChunk ...)` loop of `/upload` for one
page: add every kept fragment with its embedding (`embed` models the external
`encode`-based embedding computation). -/
def storePageChunks (embed : List Char → List JSNum) (s : VectorStoreState)
    (pageNum : Nat) (fragments : List (List Char)) : VectorStoreState :=
  (keptPageChunks fragments).foldl (fun st c => addChunk st c (embed c) pageNum) s

/-- Store states visible at the `await` boundaries inside the `/upload` page
loop: one state after each page's chunks are pushed. -/
def pageStatesGo (embed : List Char → List JSNum) (s : VectorStoreState) (pageNum : Nat) :
    List (List (List Char)) → List VectorStoreState
  | [] => []
  | frags :: rest =>
    storePageChunks embed s pageNum frags ::
      pageStatesGo embed (storePageChunks embed s pageNum frags) (pageNum + 1) rest

/-- All store states a concurrent reader can observe during one `/upload` of a
document given as per-page sentence-fragment lists (the sentence-boundary
split of each page's text, performed synchronously, is taken as input): the
prior state (before the handler's first synchronous segment), the cleared
store (while `getDocument` is awaited), the cleared store with the new
metadata (while the first page is awaited), the state after each page's
chunks, and the final state with `totalChunks` set. -/
def uploadVisibleStates (embed : List Char → List JSNum) (prior : VectorStoreState)
    (fileName : List Char) (pages : List (List (List Char))) : List VectorStoreState :=
  let metaSet : VectorStoreState :=
    { clearedStore with
      metadata := { currentFileName := fileName, pageCount := pages.length, totalChunks := 0 } }
  let mids := pageStatesGo embed metaSet 1 pages
  let sLast := mids.getLastD metaSet
  prior :: clearedStore :: metaSet ::
    (mids ++ [{ sLast with metadata := { sLast.metadata with totalChunks := sLast.chunks.length } }])

/-- The chunk list the upload of `pages` produces, starting at page number
`pageNum`: every page's kept fragments in order, tagged with their page. -/
def allKeptChunksFrom (embed : List Char → List JSNum) (pageNum : Nat) :
    List (List (List Char)) → List StoredChunk
  | [] => []
  | frags :: rest =>
    (keptPageChunks frags).map (fun c => { text := c, page := pageNum, embedding := embed c }) ++
      allKeptChunksFrom embed (pageNum + 1) rest

/-- Outcome of the `/search` handler up to (and excluding) the external LLM
call: `noContent` is the 400 "No manual content available" answer,
`thrown` the catch branch (HTTP 500), `results` a successful retrieval
(empty hits short-circuit into the fixed "could not find" answer). -/
inductive SearchOutcome where
  | noContent : SearchOutcome
  | thrown : SearchOutcome
  | results : List SearchHit → SearchOutcome
deriving DecidableEq

/-- Embeds the synchronous prefix of the `/search` handler reading store state
`s`: reject when no chunks are loaded, otherwise run `vectorStore.search` with
the default `topK = 5`; an exception is answered with HTTP 500. -/
def observeSearch (s : VectorStoreState) (query : List Char) : SearchOutcome :=
  if s.chunks.length = 0 then .noContent
  else
    match vectorSearch s.chunks query 5 with
    | none => .thrown
    | some hits => .results hits

/-- Claim-side whitespace tokenizer worker (the specification speaks of
splitting on whitespace, the source of splitting on the space character). -/
def wsSplitGo (cur : List Char) : List Char → List (List Char)
  | [] => [cur.reverse]
  | c :: rest =>
    if c.isWhitespace then cur.reverse :: wsSplitGo [] rest
    else wsSplitGo (c :: cur) rest

/-- Claim-side tokenizer: split at every whitespace character. -/
def wsSplit (l : List Char) : List (List Char) := wsSplitGo [] l

/-- Claim-side surviving tokens: lower-case, split on whitespace, discard
tokens of length at most 2. -/
def wsTokens (query : List Char) : List (List Char) :=
  (wsSplit (toLowerChars query)).filter (fun t => 2 < t.length)

/-- Specification-side term-frequency sum: total occurrence count of every
surviving token in the lower-cased chunk text. -/
def tfSumSpec (tokens : List (List Char)) (lowText : List Char) : ℚ :=
  tokens.foldl (fun acc t => acc + (countOcc t lowText : ℚ)) 0

/-- Specification-side coverage: fraction of the distinct surviving tokens
present in the chunk. -/
def coverageSpec (tokens : List (List Char)) (lowText : List Char) : ℚ :=
  ((tokens.filter (fun t => containsSeq t lowText)).length : ℚ) / (tokens.length : ℚ)

/-- Specification-side context bonus: one half per surviving token appearing
in the immediately preceding stored chunk. -/
def prevBonusSpec (tokens : List (List Char)) : Option (List Char) → ℚ
  | none => 0
  | some p => ((tokens.filter (fun t => containsSeq t p)).length : ℚ) * (1 / 2)

/-- The score the specification's formula assigns to one chunk. -/
def specScore (tokens : List (List Char)) (lowText : List Char)
    (prevLow : Option (List Char)) : ℚ :=
  tfSumSpec tokens lowText * coverageSpec tokens lowText + prevBonusSpec tokens prevLow

/-- Specification-formula scores of a chunk sequence, each chunk seeing the
previous chunk's lower-cased text. -/
def specScores (tokens : List (List Char)) (prevLow : Option (List Char)) :
    List StoredChunk → List ℚ
  | [] => []
  | c :: rest =>
    specScore tokens (toLowerChars c.text) prevLow ::
      specScores tokens (some (toLowerChars c.text)) rest

/-- Specification-side ranking order on index-tagged hits: strictly greater
score first, ties by smaller original index (arrival order). -/
def lexBefore (p q : Nat × SearchHit) : Bool :=
  if valQ p.2.score = valQ q.2.score then p.1 ≤ q.1
  else valQ q.2.score < valQ p.2.score

/-- Insertion into a list sorted by `lexBefore`. -/
def insertLex (x : Nat × SearchHit) : List (Nat × SearchHit) → List (Nat × SearchHit)
  | [] => [x]
  | y :: rest => if lexBefore x y then x :: y :: rest else y :: insertLex x rest

/-- Insertion sort by the specification's ranking order. -/
def sortLex : List (Nat × SearchHit) → List (Nat × SearchHit)
  | [] => []
  | x :: rest => insertLex x (sortLex rest)

/-- Specification-side ranking of a scored chunk list: drop scores not above
zero, tag with arrival indices, sort by descending score breaking ties by
arrival order, drop the tags, truncate to `topK`. -/
def specRanked (scored : List SearchHit) (topK : Nat) : List SearchHit :=
  ((sortLex (List.enumFrom 0 (scored.filter (fun it => jsGtZero it.score)))).map Prod.snd).take topK

/-- Specification-side search result: the code's per-chunk scores ranked by
the specification's ordering. -/
def specRankedSearch (chunks : List StoredChunk) (query : List Char) (topK : Nat) :
    Option (List SearchHit) :=
  match scoreChunks (searchTermsOf query) none chunks with
  | none => none
  | some scored => some (specRanked scored topK)

/-- A score that survived the `> 0` filter: an actual fraction with positive
denominator (never `NaN`). -/
def goodScore : JSNum → Prop
  | .nan => False
  | .num _ d => 0 < d

/-- Denominator positivity invariant of every score the model builds. -/
def posDen : JSNum → Prop
  | .nan => True
  | .num _ d => 0 < d

/-- Structural induction matching the two-chunk batching of `processFrom`. -/
theorem twoStepInduction {P : List (List Char) → Prop} (h0 : P []) (h1 : ∀ c, P [c])
    (h2 : ∀ c1 c2 rest, P rest → P (c1 :: c2 :: rest)) : ∀ l, P l
  | [] => h0
  | [c] => h1 c
  | c1 :: c2 :: rest => h2 c1 c2 rest (twoStepInduction h0 h1 h2 rest)

/-- A successful batch settles, in order, each chunk's retry-loop value. -/
theorem runBatch_ok (oracle : Nat → Nat → AttemptOutcome) :
    ∀ (l : List (List Char)) (i : Nat) (rs : List (Option ExtractionResult)),
      runBatch oracle i l = .ok rs →
      rs = (List.range l.length).map (fun j => chunkResult oracle (i + j)) := by
  intro l
  induction l with
  | nil =>
    intro i rs h
    simp only [runBatch] at h
    cases h
    simp
  | cons c t ih =>
    intro i rs h
    simp only [runBatch] at h
    cases hres : runChunkAttempts (oracle i) with
    | error e => rw [hres] at h; cases h
    | ok r =>
      rw [hres] at h
      cases hrest : runBatch oracle (i + 1) t with
      | error e => rw [hrest] at h; cases h
      | ok rs' =>
        rw [hrest] at h
        cases h
        have hcr : chunkResult oracle i = r := by simp [chunkResult, hres]
        rw [ih (i + 1) rs' hrest]
        simp only [List.length_cons]
        rw [List.range_succ_eq_map]
        simp only [List.map_cons, List.map_map, Nat.add_zero, hcr]
        refine congrArg (r :: ·) (List.map_congr_left ?_)
        intro j _
        simp only [Function.comp_apply, Nat.succ_eq_add_one]
        congr 1
        omega

/-- Applying `filterMap id` after tabulating with `f` is `filterMap f`. -/
theorem filterMap_id_map (f : Nat → Option ExtractionResult) :
    ∀ l : List Nat, ((l.map f).filterMap id) = l.filterMap f := by
  intro l
  induction l with
  | nil => simp
  | cons a t ih => cases h : f a <;> simp [h, ih]

/-- Commuting `filterMap` past `map`. -/
theorem filterMap_map_nat {α : Type} (f : Nat → Option α) (g : Nat → Nat) :
    ∀ l : List Nat, ((l.map g).filterMap f) = l.filterMap (fun a => f (g a)) := by
  intro l
  induction l with
  | nil => simp
  | cons a t ih => cases h : f (g a) <;> simp [h, ih]

/-- A successful run of the batch loop returns, in input order, exactly the
chunks' settled values with the `undefined` ones removed by
`filter(Boolean)`. -/
theorem processFrom_ok (oracle : Nat → Nat → AttemptOutcome) :
    ∀ (l : List (List Char)) (start : Nat) (out : List ExtractionResult),
      processFrom oracle start l = .ok out →
      out = (List.range l.length).filterMap (fun j => chunkResult oracle (start + j)) := by
  intro l
  induction l using twoStepInduction with
  | h0 =>
    intro start out h
    simp only [processFrom] at h
    cases h
    simp
  | h1 c =>
    intro start out h
    simp only [processFrom] at h
    cases hb : runBatch oracle start [c] with
    | error e => rw [hb] at h; cases h
    | ok rs =>
      rw [hb] at h
      cases h
      rw [runBatch_ok oracle [c] start rs hb]
      simp [filterMap_id_map]
  | h2 c1 c2 rest ih =>
    intro start out h
    simp only [processFrom] at h
    cases hb : runBatch oracle start [c1, c2] with
    | error e => rw [hb] at h; cases h
    | ok rs =>
      rw [hb] at h
      cases ht : processFrom oracle (start + 2) rest with
      | error e => rw [ht] at h; cases h
      | ok tail =>
        rw [ht] at h
        cases h
        rw [runBatch_ok oracle [c1, c2] start rs hb, ih (start + 2) tail ht]
        have hlen : rest.length + 2 = 2 + rest.length := by omega
        rw [show (c1 :: c2 :: rest).length = 2 + rest.length by simp; omega]
        rw [List.range_add, List.filterMap_append, filterMap_id_map, filterMap_map_nat]
        have harg : (fun a => chunkResult oracle (start + (2 + a))) =
            (fun a => chunkResult oracle (start + 2 + a)) := by
          funext a
          congr 1
          omega
        rw [harg]
        simp

/-- When every chunk of a batch settles successfully, the batch collects
exactly those values in order. -/
theorem runBatch_all_ok (oracle : Nat → Nat → AttemptOutcome) (f : Nat → ExtractionResult) :
    ∀ (l : List (List Char)) (i : Nat),
      (∀ j, j < l.length → runChunkAttempts (oracle (i + j)) = .ok (some (f (i + j)))) →
      runBatch oracle i l = .ok ((List.range l.length).map (fun j => some (f (i + j)))) := by
  intro l
  induction l with
  | nil => intro i _; simp [runBatch]
  | cons c t ih =>
    intro i hall
    have h0 : runChunkAttempts (oracle i) = .ok (some (f i)) := by
      have := hall 0 (by simp)
      simpa using this
    have hrest : runBatch oracle (i + 1) t =
        .ok ((List.range t.length).map (fun j => some (f (i + 1 + j)))) := by
      refine ih (i + 1) ?_
      intro j hj
      have := hall (j + 1) (by simpa using Nat.succ_lt_succ hj)
      have harg : i + (j + 1) = i + 1 + j := by omega
      rw [harg] at this
      exact this
    simp only [runBatch, h0, hrest, List.length_cons]
    rw [List.range_succ_eq_map]
    simp only [List.map_cons, List.map_map, Nat.add_zero]
    refine congrArg (fun z => Except.ok (some (f i) :: z)) (List.map_congr_left ?_)
    intro j _
    simp only [Function.comp_apply, Nat.succ_eq_add_one]
    congr 2
    omega

/-- Applying `filterMap` to an always-`some` function is a `map`. -/
theorem filterMap_some_eq_map (g : Nat → ExtractionResult) :
    ∀ l : List Nat, l.filterMap (fun j => some (g j)) = l.map g := by
  intro l
  induction l with
  | nil => simp
  | cons a t ih => simp [ih]

/-- When every chunk settles successfully, the whole batch loop succeeds and
returns one result per chunk, in order. -/
theorem processFrom_all_ok (oracle : Nat → Nat → AttemptOutcome) (f : Nat → ExtractionResult) :
    ∀ (l : List (List Char)) (start : Nat),
      (∀ j, j < l.length → runChunkAttempts (oracle (start + j)) = .ok (some (f (start + j)))) →
      processFrom oracle start l = .ok ((List.range l.length).map (fun j => f (start + j))) := by
  intro l
  induction l using twoStepInduction with
  | h0 => intro start _; simp [processFrom]
  | h1 c =>
    intro start hall
    have hb := runBatch_all_ok oracle f [c] start (by simpa using hall)
    simp only [processFrom, hb]
    simp [filterMap_id_map, filterMap_some_eq_map]
  | h2 c1 c2 rest ih =>
    intro start hall
    have hb := runBatch_all_ok oracle f [c1, c2] start ?side
    case side =>
      intro j hj
      exact hall j (by simp at hj ⊢; omega)
    have ht : processFrom oracle (start + 2) rest =
        .ok ((List.range rest.length).map (fun j => f (start + 2 + j))) := by
      refine ih (start + 2) ?_
      intro j hj
      have h' := hall (j + 2) (by simp; omega)
      have e : start + (j + 2) = start + 2 + j := by omega
      rwa [e] at h'
    simp only [processFrom, hb, ht]
    have hlen : (c1 :: c2 :: rest).length = 2 + rest.length := by simp; omega
    rw [hlen, List.range_add, List.map_append, List.map_map]
    have harg : ((fun j => f (start + j)) ∘ (fun x => 2 + x)) = (fun j => f (start + 2 + j)) := by
      funext a
      simp only [Function.comp_apply]
      congr 1
      omega
    rw [harg]
    simp [filterMap_id_map, filterMap_some_eq_map]

/-- Concrete all-429 oracle: every attempt of every chunk is rate limited. -/
def oracleAll429 : Nat → Nat → AttemptOutcome := fun _ _ => .rateLimited

/-- C1.  The claim fails on the code: a chunk whose three attempts all return
HTTP 429 exhausts its retry budget without any error being thrown — the
`while` loop exits with `success` false, the chunk's promise settles to
`undefined`, and `batchResults.filter(Boolean)` removes it — so
`processChunksInBatches` on one such chunk succeeds with an empty result list
instead of surfacing a terminal failure or returning one result per chunk. -/
theorem c1_rate_limited_chunk_silently_dropped :
    processChunksInBatches ["intro section of the manual".toList] oracleAll429 = .ok [] ∧
    ["intro section of the manual".toList].length = 1 := by
  exact ⟨rfl, rfl⟩

/-- Concrete extraction result for the order counterexample and witness. -/
def resB : ExtractionResult := { key_points := ["B"], warnings := [], steps := [] }

/-- Oracle dropping chunk 0 (always rate limited) and succeeding on every
other chunk immediately with `resB`. -/
def oracleC2 : Nat → Nat → AttemptOutcome := fun i _ => if i = 0 then .rateLimited else .ok resB

/-- C2 counterexample.  On the two-chunk input whose first chunk exhausts its
retries on 429s, `processChunksInBatches` succeeds with a single-element
result list: the first returned result does not correspond to the first input
chunk, so the claimed index-wise correspondence fails. -/
theorem c2_counterexample :
    processChunksInBatches ["chunk a".toList, "chunk b".toList] oracleC2 = .ok [resB] ∧
    [resB].length ≠ ["chunk a".toList, "chunk b".toList].length := by
  exact ⟨rfl, by decide⟩

/-- C2 (amended).  When `processChunksInBatches` succeeds, the returned
sequence lists the chunks' extraction results in input order with the
silently dropped chunks (those whose attempts exhausted the retry budget on
rate-limited outcomes) omitted; in particular, when no chunk is dropped,
result `i` corresponds to chunk `i`. -/
theorem c2_order_preserved_modulo_drops (chunks : List (List Char))
    (oracle : Nat → Nat → AttemptOutcome) (out : List ExtractionResult)
    (h : processChunksInBatches chunks oracle = .ok out) :
    out = (List.range chunks.length).filterMap (fun j => chunkResult oracle j) := by
  have := processFrom_ok oracle chunks 0 out h
  simpa using this

/-- Witness for the amended C2 at a concrete input (one chunk dropped, one
successful). -/
theorem c2_witness :
    processChunksInBatches ["chunk a".toList, "chunk b".toList] oracleC2 = .ok [resB] ∧
    [resB] = (List.range 2).filterMap (fun j => chunkResult oracleC2 j) := by
  refine ⟨rfl, ?_⟩
  exact c2_order_preserved_modulo_drops ["chunk a".toList, "chunk b".toList] oracleC2 [resB] rfl

/-- A left fold of appends is the initial list followed by the flattened
mapped fields. -/
theorem foldl_append_eq_flatten (g : ExtractionResult → List String) :
    ∀ (l : List ExtractionResult) (init : List String),
      l.foldl (fun acc c => acc ++ g c) init = init ++ (l.map g).flatten := by
  intro l
  induction l with
  | nil => intro init; simp
  | cons c t ih =>
    intro init
    simp only [List.foldl_cons, List.map_cons, List.flatten_cons]
    rw [ih (init ++ g c), List.append_assoc]

/-- Membership in the dedup traversal: present in the input and not yet
seen. -/
theorem mem_setDedupGo (a : String) :
    ∀ (l seen : List String), a ∈ setDedupGo seen l ↔ a ∈ l ∧ a ∉ seen := by
  intro l
  induction l with
  | nil => intro seen; simp [setDedupGo]
  | cons b t ih =>
    intro seen
    by_cases hb : b ∈ seen
    · simp only [setDedupGo, if_pos hb, ih, List.mem_cons]
      constructor
      · rintro ⟨h1, h2⟩
        exact ⟨Or.inr h1, h2⟩
      · rintro ⟨h1 | h1, h2⟩
        · exact absurd (h1 ▸ hb) h2
        · exact ⟨h1, h2⟩
    · simp only [setDedupGo, if_neg hb, List.mem_cons, ih (b :: seen)]
      by_cases hab : a = b
      · subst hab
        simp [hb]
      · simp [hab]

/-- The dedup traversal never repeats an element. -/
theorem nodup_setDedupGo : ∀ (l seen : List String), (setDedupGo seen l).Nodup := by
  intro l
  induction l with
  | nil => intro seen; simp [setDedupGo]
  | cons b t ih =>
    intro seen
    by_cases hb : b ∈ seen
    · simpa [setDedupGo, if_pos hb] using ih seen
    · simp only [setDedupGo, if_neg hb, List.nodup_cons]
      refine ⟨?_, ih (b :: seen)⟩
      intro hmem
      exact ((mem_setDedupGo b t (b :: seen)).mp hmem).2 (List.mem_cons_self b seen)

/-- The dedup traversal is a subsequence of its input (first-seen order is
preserved). -/
theorem sublist_setDedupGo : ∀ (l seen : List String), List.Sublist (setDedupGo seen l) l := by
  intro l
  induction l with
  | nil => intro seen; simp [setDedupGo]
  | cons b t ih =>
    intro seen
    by_cases hb : b ∈ seen
    · simpa [setDedupGo, if_pos hb] using (ih seen).cons b
    · simpa [setDedupGo, if_neg hb] using (ih (b :: seen)).cons₂ b

/-- A duplicate-free list of fresh elements passes through the dedup
traversal unchanged. -/
theorem setDedupGo_eq_self :
    ∀ (l seen : List String), l.Nodup → (∀ a ∈ l, a ∉ seen) → setDedupGo seen l = l := by
  intro l
  induction l with
  | nil => intro seen _ _; simp [setDedupGo]
  | cons b t ih =>
    intro seen hnd hfresh
    have hb : b ∉ seen := hfresh b (List.mem_cons_self b t)
    simp only [setDedupGo, if_neg hb]
    refine congrArg (b :: ·) (ih (b :: seen) (List.Nodup.of_cons hnd) ?_)
    intro a ha
    intro hs
    rcases List.mem_cons.mp hs with h | h
    · subst h
      exact (List.nodup_cons.mp hnd).1 ha
    · exact hfresh a (List.mem_cons_of_mem b ha) h

/-- C5.  `mergeProcessedChunks` concatenates all `key_points` into
`prerequisites`, all `warnings` into `warnings`, all `steps` into `steps`, and
deduplicates each field by exact case-sensitive string equality keeping
first occurrences (hence each field is duplicate-free, is a subsequence of
the concatenation, and has exactly the concatenation's members); the title is
always the fixed constant; the empty input yields an empty aggregate as a
non-error value. -/
theorem c5_merge_concatenates_and_dedups (rs : List ExtractionResult) :
    (mergeProcessedChunks rs).title = "Technical Manual Summary" ∧
    (mergeProcessedChunks rs).prerequisites = setDedup ((rs.map (fun c => c.key_points)).flatten) ∧
    (mergeProcessedChunks rs).warnings = setDedup ((rs.map (fun c => c.warnings)).flatten) ∧
    (mergeProcessedChunks rs).steps = setDedup ((rs.map (fun c => c.steps)).flatten) ∧
    (mergeProcessedChunks rs).prerequisites.Nodup ∧
    (mergeProcessedChunks rs).warnings.Nodup ∧
    (mergeProcessedChunks rs).steps.Nodup ∧
    List.Sublist (mergeProcessedChunks rs).prerequisites ((rs.map (fun c => c.key_points)).flatten) ∧
    List.Sublist (mergeProcessedChunks rs).warnings ((rs.map (fun c => c.warnings)).flatten) ∧
    List.Sublist (mergeProcessedChunks rs).steps ((rs.map (fun c => c.steps)).flatten) ∧
    (∀ a : String,
      (a ∈ (mergeProcessedChunks rs).prerequisites ↔ a ∈ (rs.map (fun c => c.key_points)).flatten) ∧
      (a ∈ (mergeProcessedChunks rs).warnings ↔ a ∈ (rs.map (fun c => c.warnings)).flatten) ∧
      (a ∈ (mergeProcessedChunks rs).steps ↔ a ∈ (rs.map (fun c => c.steps)).flatten)) ∧
    mergeProcessedChunks [] =
      { title := "Technical Manual Summary", prerequisites := [], warnings := [], steps := [] } := by
  have hfold : ∀ g : ExtractionResult → List String,
      rs.foldl (fun acc c => acc ++ g c) [] = (rs.map g).flatten := by
    intro g
    simpa using foldl_append_eq_flatten g rs []
  refine ⟨rfl, ?_, ?_, ?_, ?_, ?_, ?_, ?_, ?_, ?_, ?_, rfl⟩
  · simp [mergeProcessedChunks, hfold]
  · simp [mergeProcessedChunks, hfold]
  · simp [mergeProcessedChunks, hfold]
  · exact nodup_setDedupGo _ []
  · exact nodup_setDedupGo _ []
  · exact nodup_setDedupGo _ []
  · simpa [mergeProcessedChunks, setDedup, hfold] using
      sublist_setDedupGo ((rs.map (fun c => c.key_points)).flatten) []
  · simpa [mergeProcessedChunks, setDedup, hfold] using
      sublist_setDedupGo ((rs.map (fun c => c.warnings)).flatten) []
  · simpa [mergeProcessedChunks, setDedup, hfold] using
      sublist_setDedupGo ((rs.map (fun c => c.steps)).flatten) []
  · intro a
    refine ⟨?_, ?_, ?_⟩ <;>
      simp [mergeProcessedChunks, setDedup, hfold, mem_setDedupGo]

/-- C6.  Re-merging the aggregate document as a single extraction result
leaves the three list fields unchanged (merge is idempotent on its own
output), and a string occurring in any input chunk's field occurs exactly
once in the corresponding output field. -/
theorem c6_merge_idempotent (rs : List ExtractionResult) :
    (mergeProcessedChunks
        [{ key_points := (mergeProcessedChunks rs).prerequisites,
           warnings := (mergeProcessedChunks rs).warnings,
           steps := (mergeProcessedChunks rs).steps }]).prerequisites =
      (mergeProcessedChunks rs).prerequisites ∧
    (mergeProcessedChunks
        [{ key_points := (mergeProcessedChunks rs).prerequisites,
           warnings := (mergeProcessedChunks rs).warnings,
           steps := (mergeProcessedChunks rs).steps }]).warnings =
      (mergeProcessedChunks rs).warnings ∧
    (mergeProcessedChunks
        [{ key_points := (mergeProcessedChunks rs).prerequisites,
           warnings := (mergeProcessedChunks rs).warnings,
           steps := (mergeProcessedChunks rs).steps }]).steps =
      (mergeProcessedChunks rs).steps ∧
    (∀ a : String, a ∈ (rs.map (fun c => c.key_points)).flatten →
      (mergeProcessedChunks rs).prerequisites.count a = 1) ∧
    (∀ a : String, a ∈ (rs.map (fun c => c.warnings)).flatten →
      (mergeProcessedChunks rs).warnings.count a = 1) ∧
    (∀ a : String, a ∈ (rs.map (fun c => c.steps)).flatten →
      (mergeProcessedChunks rs).steps.count a = 1) := by
  have hfix : ∀ l : List String, setDedup (setDedup l) = setDedup l := by
    intro l
    exact setDedupGo_eq_self (setDedup l) [] (nodup_setDedupGo l []) (by simp)
  have hsingle : ∀ g : ExtractionResult → List String, ∀ r : ExtractionResult,
      ([r].foldl (fun acc c => acc ++ g c) []) = g r := by
    intro g r
    simp
  have hkp : rs.foldl (fun acc c => acc ++ c.key_points) [] =
      (rs.map (fun c => c.key_points)).flatten := by
    simpa using foldl_append_eq_flatten (fun c => c.key_points) rs []
  have hw : rs.foldl (fun acc c => acc ++ c.warnings) [] =
      (rs.map (fun c => c.warnings)).flatten := by
    simpa using foldl_append_eq_flatten (fun c => c.warnings) rs []
  have hst : rs.foldl (fun acc c => acc ++ c.steps) [] =
      (rs.map (fun c => c.steps)).flatten := by
    simpa using foldl_append_eq_flatten (fun c => c.steps) rs []
  refine ⟨?_, ?_, ?_, ?_, ?_, ?_⟩
  · simp only [mergeProcessedChunks, hsingle]
    exact hfix _
  · simp only [mergeProcessedChunks, hsingle]
    exact hfix _
  · simp only [mergeProcessedChunks, hsingle]
    exact hfix _
  · intro a ha
    refine List.count_eq_one_of_mem (nodup_setDedupGo _ []) ?_
    simp only [mergeProcessedChunks, setDedup, hkp]
    exact (mem_setDedupGo a _ []).mpr ⟨ha, by simp⟩
  · intro a ha
    refine List.count_eq_one_of_mem (nodup_setDedupGo _ []) ?_
    simp only [mergeProcessedChunks, setDedup, hw]
    exact (mem_setDedupGo a _ []).mpr ⟨ha, by simp⟩
  · intro a ha
    refine List.count_eq_one_of_mem (nodup_setDedupGo _ []) ?_
    simp only [mergeProcessedChunks, setDedup, hst]
    exact (mem_setDedupGo a _ []).mpr ⟨ha, by simp⟩

/-- Concrete merge input with a key point and a step shared by both chunks. -/
def rsW : List ExtractionResult :=
  [{ key_points := ["A"], warnings := ["W"], steps := ["S"] },
   { key_points := ["A"], warnings := [], steps := ["S", "T"] }]

/-- Witness for C6 at a concrete input: re-merging leaves the steps unchanged
and the step string shared by both chunks appears exactly once. -/
theorem c6_witness :
    (mergeProcessedChunks
        [{ key_points := (mergeProcessedChunks rsW).prerequisites,
           warnings := (mergeProcessedChunks rsW).warnings,
           steps := (mergeProcessedChunks rsW).steps }]).steps = (mergeProcessedChunks rsW).steps ∧
    (mergeProcessedChunks rsW).steps.count "S" = 1 :=
  ⟨(c6_merge_idempotent rsW).2.2.1, (c6_merge_idempotent rsW).2.2.2.2.2 "S" (by decide)⟩

/-- Pushing a list of chunks into the store appends them in order. -/
theorem foldl_addChunk_chunks (embed : List Char → List JSNum) (pageNum : Nat) :
    ∀ (kept : List (List Char)) (s : VectorStoreState),
      ((kept.foldl (fun st c => addChunk st c (embed c) pageNum) s).chunks) =
        s.chunks ++ kept.map (fun c => { text := c, page := pageNum, embedding := embed c }) := by
  intro kept
  induction kept with
  | nil => intro s; simp
  | cons c t ih =>
    intro s
    simp only [List.foldl_cons, ih, List.map_cons]
    simp [addChunk]

/-- C7 (amended).  On the indexing path a page fragment is stored iff its
trimmed length is strictly greater than 50 (so fragments of trimmed length at
most 50, not only those below 50, are dropped), and what is stored is exactly
the trimmed kept fragments in order; on the summarization path no length
filter exists: when every chunk extracts successfully the batch loop returns
one result per chunk, however short the chunk. -/
theorem c7_index_filter_and_no_summary_drop :
    (∀ (embed : List Char → List JSNum) (s : VectorStoreState) (p : Nat)
        (frags : List (List Char)),
        (storePageChunks embed s p frags).chunks.map (fun c => c.text) =
          s.chunks.map (fun c => c.text) ++
            ((frags.filter (fun c => 50 < (trimChars c).length)).map (fun c => trimChars c))) ∧
    (∀ (chunks : List (List Char)) (oracle : Nat → Nat → AttemptOutcome)
        (f : Nat → ExtractionResult),
        (∀ j, j < chunks.length → runChunkAttempts (oracle j) = .ok (some (f j))) →
        processChunksInBatches chunks oracle = .ok ((List.range chunks.length).map f)) := by
  constructor
  · intro embed s p frags
    simp only [storePageChunks, foldl_addChunk_chunks, List.map_append, List.map_map]
    simp [keptPageChunks, List.map_map]
  · intro chunks oracle f hall
    have h := processFrom_all_ok oracle f chunks 0 (by simpa using hall)
    simpa using h

/-- A fragment whose trimmed length is exactly the minimum (50). -/
def fragFifty : List Char := "abcdefghijklmnopqrstuvwxyzabcdefghijklmnopqrstuvwx".toList

/-- Trivial embedding function for concrete store computations. -/
def embedNil : List Char → List JSNum := fun _ => []

/-- C7 counterexample.  A fragment of trimmed length exactly 50 — not below
the claimed 50-character minimum — is nevertheless dropped by the `/upload`
filter and never stored, refuting "exactly those fragments are dropped". -/
theorem c7_counterexample :
    (storePageChunks embedNil clearedStore 1 [fragFifty]).chunks = [] ∧
    (trimChars fragFifty).length = 50 := by
  exact ⟨rfl, by decide⟩

/-- A fragment long enough to pass the 50-character filter. -/
def fragLong : List Char :=
  "This fragment is long enough to pass the fifty character filter.".toList

/-- Uniform successful extraction used by the C7 witness. -/
def resShort : ExtractionResult := { key_points := ["short"], warnings := [], steps := [] }

/-- Per-chunk result function for the C7 witness. -/
def fShort : Nat → ExtractionResult := fun _ => resShort

/-- Oracle succeeding immediately on every chunk, for the C7 witness. -/
def oracleAllOk : Nat → Nat → AttemptOutcome := fun _ _ => .ok resShort

/-- Witness for C7 at concrete inputs: the 50-character fragment is dropped
while the long one is stored trimmed, and a one-character chunk is still
submitted and summarized on the summarization path. -/
theorem c7_witness :
    ((storePageChunks embedNil clearedStore 1 [fragFifty, fragLong]).chunks.map (fun c => c.text) =
      clearedStore.chunks.map (fun c => c.text) ++
        (([fragFifty, fragLong].filter (fun c => 50 < (trimChars c).length)).map
          (fun c => trimChars c))) ∧
    processChunksInBatches ["x".toList] oracleAllOk = .ok ((List.range 1).map fShort) := by
  refine ⟨c7_index_filter_and_no_summary_drop.1 embedNil clearedStore 1 [fragFifty, fragLong], ?_⟩
  refine c7_index_filter_and_no_summary_drop.2 ["x".toList] oracleAllOk fShort ?_
  intro j hj
  rcases j with _ | j
  · rfl
  · simp at hj

/-- Addition preserves positive denominators. -/
theorem posDen_jsAdd {a b : JSNum} (ha : posDen a) (hb : posDen b) : posDen (jsAdd a b) := by
  cases a with
  | nan => simp [jsAdd, posDen]
  | num n d =>
    cases b with
    | nan => simp [jsAdd, posDen]
    | num m e =>
      simp only [jsAdd, posDen] at *
      exact Nat.mul_pos ha hb

/-- Multiplication preserves positive denominators. -/
theorem posDen_jsMul {a b : JSNum} (ha : posDen a) (hb : posDen b) : posDen (jsMul a b) := by
  cases a with
  | nan => simp [jsMul, posDen]
  | num n d =>
    cases b with
    | nan => simp [jsMul, posDen]
    | num m e =>
      simp only [jsMul, posDen] at *
      exact Nat.mul_pos ha hb

/-- Division of naturals always yields `NaN` or a positive denominator. -/
theorem posDen_jsDivNat (a b : Nat) : posDen (jsDivNat a b) := by
  by_cases hb : b = 0
  · simp [jsDivNat, hb, posDen]
  · simp only [jsDivNat, if_neg hb, posDen]
    exact Nat.pos_of_ne_zero hb

/-- The integer term-frequency accumulator of one chunk. -/
def tfInt (terms : List (List Char)) (text : List Char) : Int :=
  terms.foldl (fun a t => a + (countOcc t text : Int)) 0

/-- The `uniqueTermsFound` count of one chunk. -/
def uniqOf (terms : List (List Char)) (text : List Char) : Nat :=
  (terms.filter (fun t => containsSeq t text)).length

/-- Number of terms contained in the previous chunk (the `0.5` bonus
counter). -/
def bonusOf (terms : List (List Char)) : Option (List Char) → Nat
  | none => 0
  | some p => (terms.filter (fun t => containsSeq t p)).length

/-- On metacharacter-free nonempty terms the term-frequency loop succeeds
with the plain occurrence-count fold. -/
theorem termFrequencyGo_safe (text : List Char) :
    ∀ (terms : List (List Char)) (acc : Int),
      (∀ t ∈ terms, isRegexSafeTok t = true ∧ t ≠ []) →
      termFrequencyGo text acc terms =
        some (terms.foldl (fun a t => a + (countOcc t text : Int)) acc) := by
  intro terms
  induction terms with
  | nil => intro acc _; simp [termFrequencyGo]
  | cons t ts ih =>
    intro acc hsafe
    obtain ⟨hs, hne⟩ := hsafe t (List.mem_cons_self t ts)
    have hemp : t.isEmpty = false := by
      cases t with
      | nil => exact absurd rfl hne
      | cons c cs => rfl
    simp only [termFrequencyGo, regexCountG, if_pos hs, hemp, Bool.false_eq_true, if_false,
      List.foldl_cons]
    exact ih (acc + countOcc t text) (fun u hu => hsafe u (List.mem_cons_of_mem t hu))

/-- On metacharacter-free terms the term-frequency loop always succeeds. -/
theorem termFrequencyGo_safe_ex (text : List Char) :
    ∀ (terms : List (List Char)) (acc : Int),
      (∀ t ∈ terms, isRegexSafeTok t = true) →
      ∃ n, termFrequencyGo text acc terms = some n := by
  intro terms
  induction terms with
  | nil => intro acc _; exact ⟨acc, rfl⟩
  | cons t ts ih =>
    intro acc hsafe
    have hs := hsafe t (List.mem_cons_self t ts)
    by_cases hemp : t.isEmpty
    · simp only [termFrequencyGo, regexCountG, if_pos hs, hemp, if_true]
      exact ih _ (fun u hu => hsafe u (List.mem_cons_of_mem t hu))
    · simp only [termFrequencyGo, regexCountG, if_pos hs, hemp, if_false]
      exact ih _ (fun u hu => hsafe u (List.mem_cons_of_mem t hu))

/-- The integer fold casts to the specification's rational term-frequency
sum. -/
theorem tfInt_cast (text : List Char) :
    ∀ (terms : List (List Char)) (acc : Int),
      ((terms.foldl (fun a t => a + (countOcc t text : Int)) acc : Int) : ℚ) =
        terms.foldl (fun a t => a + (countOcc t text : ℚ)) (acc : ℚ) := by
  intro terms
  induction terms with
  | nil => intro acc; simp
  | cons t ts ih =>
    intro acc
    simp only [List.foldl_cons]
    rw [ih (acc + countOcc t text)]
    push_cast
    rfl

/-- The per-chunk score expression the scoring callback builds, on safe
terms. -/
theorem chunkScore_eq (terms : List (List Char)) (lowText : List Char)
    (prevLow : Option (List Char))
    (hsafe : ∀ t ∈ terms, isRegexSafeTok t = true ∧ t ≠ []) :
    chunkScore terms lowText prevLow =
      some (jsAdd (jsMul (.num (tfInt terms lowText) 1)
          (jsDivNat (uniqOf terms lowText) terms.length)) (.num (bonusOf terms prevLow) 2)) := by
  have htf := termFrequencyGo_safe lowText terms 0 hsafe
  cases prevLow with
  | none => simp [chunkScore, htf, tfInt, uniqOf, bonusOf]
  | some p => simp [chunkScore, htf, tfInt, uniqOf, bonusOf]

/-- Valuation of the per-chunk score shape: exactly the specification's
formula. -/
theorem val_score_shape (terms : List (List Char)) (lowText : List Char)
    (prevLow : Option (List Char)) (hlen : terms.length ≠ 0) :
    JSNum.val (jsAdd (jsMul (.num (tfInt terms lowText) 1)
        (jsDivNat (uniqOf terms lowText) terms.length)) (.num (bonusOf terms prevLow) 2)) =
      some (specScore terms lowText prevLow) := by
  simp only [jsDivNat, if_neg hlen, jsMul, jsAdd, JSNum.val, Option.some.injEq]
  have hlq : ((terms.length : ℚ)) ≠ 0 := Nat.cast_ne_zero.mpr hlen
  have htf : ((tfInt terms lowText : Int) : ℚ) = tfSumSpec terms lowText := by
    simpa [tfInt, tfSumSpec] using tfInt_cast lowText terms 0
  have hbonus : ((bonusOf terms prevLow : Nat) : ℚ) * (1 / 2) = prevBonusSpec terms prevLow := by
    cases prevLow with
    | none => simp [bonusOf, prevBonusSpec]
    | some p => simp [bonusOf, prevBonusSpec]
  rw [specScore, coverageSpec, ← htf, ← hbonus]
  simp only [uniqOf]
  push_cast
  field_simp

/-- Positive denominator of the per-chunk score shape. -/
theorem posDen_score_shape (terms : List (List Char)) (lowText : List Char)
    (prevLow : Option (List Char)) :
    posDen (jsAdd (jsMul (.num (tfInt terms lowText) 1)
        (jsDivNat (uniqOf terms lowText) terms.length)) (.num (bonusOf terms prevLow) 2)) := by
  refine posDen_jsAdd (posDen_jsMul ?_ (posDen_jsDivNat _ _)) ?_
  · simp [posDen]
  · simp [posDen]

/-- Every token surviving `searchTermsOf` has length above 2 (hence is
nonempty). -/
theorem searchTermsOf_long (query : List Char) :
    ∀ t ∈ searchTermsOf query, 2 < t.length := by
  intro t ht
  have := (List.mem_filter.mp ht).2
  exact of_decide_eq_true this

/-- The chunk-scoring pass computes, chunk by chunk, exactly the
specification's formula values (on a query with at least one surviving
metacharacter-free token). -/
theorem scoreChunks_eq_spec (terms : List (List Char)) (hne : terms ≠ [])
    (hsafe : ∀ t ∈ terms, isRegexSafeTok t = true ∧ t ≠ []) :
    ∀ (chunks : List StoredChunk) (prevLow : Option (List Char)),
      (scoreChunks terms prevLow chunks).map (fun L => L.map (fun it => JSNum.val it.score)) =
        some ((specScores terms prevLow chunks).map some) := by
  have hlen : terms.length ≠ 0 := by
    intro h0
    exact hne (List.length_eq_zero.mp h0)
  intro chunks
  induction chunks with
  | nil => intro prevLow; simp [scoreChunks, specScores]
  | cons c rest ih =>
    intro prevLow
    have hcs := chunkScore_eq terms (toLowerChars c.text) prevLow hsafe
    have htail := ih (some (toLowerChars c.text))
    cases hrest : scoreChunks terms (some (toLowerChars c.text)) rest with
    | none =>
      rw [hrest] at htail
      exact Option.noConfusion htail
    | some tail =>
      rw [hrest] at htail
      simp only [Option.map_some', Option.some.injEq] at htail
      simp only [scoreChunks, hcs, hrest, specScores, Option.map_some', Option.some.injEq,
        List.map_cons]
      rw [val_score_shape terms (toLowerChars c.text) prevLow hlen, htail]

/-- Every score a successful scoring pass yields has a positive denominator
(or is `NaN`). -/
theorem scoreChunks_posDen (terms : List (List Char)) :
    ∀ (chunks : List StoredChunk) (prevLow : Option (List Char)) (L : List SearchHit),
      scoreChunks terms prevLow chunks = some L → ∀ it ∈ L, posDen it.score := by
  intro chunks
  induction chunks with
  | nil =>
    intro prevLow L h
    simp only [scoreChunks, Option.some.injEq] at h
    subst h
    intro it hit
    cases hit
  | cons c rest ih =>
    intro prevLow L h
    cases hcs : chunkScore terms (toLowerChars c.text) prevLow with
    | none => rw [scoreChunks, hcs] at h; cases h
    | some s =>
      rw [scoreChunks, hcs] at h
      cases hrest : scoreChunks terms (some (toLowerChars c.text)) rest with
      | none => rw [hrest] at h; cases h
      | some tail =>
        rw [hrest] at h
        simp only [Option.some.injEq] at h
        subst h
        intro it hit
        rcases List.mem_cons.mp hit with h1 | h1
        · subst h1
          have hps : posDen s := by
            unfold chunkScore at hcs
            cases htf : termFrequencyGo (toLowerChars c.text) 0 terms with
            | none => rw [htf] at hcs; cases hcs
            | some tf =>
              rw [htf] at hcs
              simp only [Option.some.injEq] at hcs
              subst hcs
              refine posDen_jsAdd (posDen_jsMul ?_ (posDen_jsDivNat _ _)) ?_
              · simp [posDen]
              · simp [posDen]
          exact hps
        · exact ih (some (toLowerChars c.text)) tail hrest it h1

/-- With no surviving token every chunk's score is `NaN`: the coverage factor
is `0 / 0 = NaN` and multiplication and addition keep it `NaN`. -/
theorem scoreChunks_nil_terms :
    ∀ (chunks : List StoredChunk) (prevLow : Option (List Char)),
      scoreChunks [] prevLow chunks =
        some (chunks.map (fun c => { text := c.text, page := c.page, score := JSNum.nan })) := by
  intro chunks
  induction chunks with
  | nil => intro prevLow; simp [scoreChunks]
  | cons c rest ih =>
    intro prevLow
    have h : chunkScore [] (toLowerChars c.text) prevLow = some JSNum.nan := by
      cases prevLow with
      | none => simp [chunkScore, termFrequencyGo, jsDivNat, jsMul, jsAdd]
      | some p => simp [chunkScore, termFrequencyGo, jsDivNat, jsMul, jsAdd]
    simp [scoreChunks, h, ih]

/-- A filter by a predicate false on every element is empty. -/
theorem filter_eq_nil_of_false {α : Type} (p : α → Bool) :
    ∀ l : List α, (∀ x ∈ l, p x = false) → l.filter p = [] := by
  intro l
  induction l with
  | nil => intro _; rfl
  | cons a t ih =>
    intro h
    have ha := h a (List.mem_cons_self a t)
    simp only [List.filter_cons, ha, Bool.false_eq_true, if_false]
    exact ih (fun x hx => h x (List.mem_cons_of_mem a hx))

/-- When no surviving token occurs in any stored chunk (and the tokens are
metacharacter-free so no regex throws), every chunk's score fails the
`> 0` filter: the coverage factor is `0` (or `NaN` with no tokens at all) and
the previous-chunk bonus is `0`. -/
theorem scoreChunks_no_match (terms : List (List Char))
    (hsafe : ∀ t ∈ terms, isRegexSafeTok t = true) :
    ∀ (chunks : List StoredChunk) (prevLow : Option (List Char)),
      (∀ t ∈ terms, ∀ c ∈ chunks, containsSeq t (toLowerChars c.text) = false) →
      (∀ t ∈ terms, ∀ p, prevLow = some p → containsSeq t p = false) →
      ∃ L, scoreChunks terms prevLow chunks = some L ∧ ∀ it ∈ L, jsGtZero it.score = false := by
  intro chunks
  induction chunks with
  | nil =>
    intro prevLow _ _
    refine ⟨[], rfl, ?_⟩
    intro it hit
    cases hit
  | cons c rest ih =>
    intro prevLow habs hprev
    obtain ⟨tf, htf⟩ := termFrequencyGo_safe_ex (toLowerChars c.text) terms 0 hsafe
    have huniq : (terms.filter (fun t => containsSeq t (toLowerChars c.text))).length = 0 := by
      rw [filter_eq_nil_of_false _ terms
        (fun t ht => habs t ht c (List.mem_cons_self c rest))]
      rfl
    have hbonus : (match prevLow with
        | none => (0 : Nat)
        | some p => (terms.filter (fun t => containsSeq t p)).length) = 0 := by
      cases hpl : prevLow with
      | none => rfl
      | some p =>
        show (terms.filter (fun t => containsSeq t p)).length = 0
        rw [filter_eq_nil_of_false _ terms (fun t ht => hprev t ht p hpl)]
        rfl
    have hscore : ∃ s, chunkScore terms (toLowerChars c.text) prevLow = some s ∧
        jsGtZero s = false := by
      simp only [chunkScore, htf]
      refine ⟨_, rfl, ?_⟩
      rw [huniq, hbonus]
      by_cases hlen : terms.length = 0
      · simp [jsDivNat, hlen, jsMul, jsAdd, jsGtZero]
      · simp [jsDivNat, hlen, jsMul, jsAdd, jsGtZero]
    obtain ⟨s, hcs, hz⟩ := hscore
    have habsRest : ∀ t ∈ terms, ∀ d ∈ rest, containsSeq t (toLowerChars d.text) = false := by
      intro t ht d hd
      exact habs t ht d (List.mem_cons_of_mem c hd)
    have hprevRest : ∀ t ∈ terms, ∀ p, some (toLowerChars c.text) = some p →
        containsSeq t p = false := by
      intro t ht p hp
      have hc := habs t ht c (List.mem_cons_self c rest)
      rw [show p = toLowerChars c.text from (Option.some.injEq _ _).mp hp.symm]
      exact hc
    obtain ⟨L, hL, hLz⟩ := ih (some (toLowerChars c.text)) habsRest hprevRest
    refine ⟨{ text := c.text, page := c.page, score := s } :: L, ?_, ?_⟩
    · simp only [scoreChunks, hcs, hL]
    intro it hit
    rcases List.mem_cons.mp hit with h1 | h1
    · subst h1
      exact hz
    · exact hLz it h1

/-- A score that passed both the positivity filter and the denominator
invariant is a genuine positive-denominator fraction. -/
theorem goodScore_of {s : JSNum} (h1 : posDen s) (h2 : jsGtZero s = true) : goodScore s := by
  cases s with
  | nan => simp [jsGtZero] at h2
  | num n d => exact h1

/-- Membership through score insertion. -/
theorem mem_insertByScore (x y : SearchHit) :
    ∀ L, (y ∈ insertByScore x L ↔ y = x ∨ y ∈ L) := by
  intro L
  induction L with
  | nil => simp [insertByScore]
  | cons z t ih =>
    cases hc : jsLeNum z.score x.score with
    | true => simp [insertByScore, hc]
    | false =>
      simp only [insertByScore, hc, Bool.false_eq_true, if_false, List.mem_cons, ih]
      tauto

/-- Membership through the stable score sort. -/
theorem mem_sortByScore (y : SearchHit) :
    ∀ L, (y ∈ sortByScore L ↔ y ∈ L) := by
  intro L
  induction L with
  | nil => simp [sortByScore]
  | cons z t ih =>
    simp [sortByScore, mem_insertByScore, ih, eq_comm]

/-- Membership through ranking insertion. -/
theorem mem_insertLex (x y : Nat × SearchHit) :
    ∀ L, (y ∈ insertLex x L ↔ y = x ∨ y ∈ L) := by
  intro L
  induction L with
  | nil => simp [insertLex]
  | cons z t ih =>
    cases hc : lexBefore x z with
    | true => simp [insertLex, hc]
    | false =>
      simp only [insertLex, hc, Bool.false_eq_true, if_false, List.mem_cons, ih]
      tauto

/-- Membership through the ranking sort. -/
theorem mem_sortLex (y : Nat × SearchHit) :
    ∀ L, (y ∈ sortLex L ↔ y ∈ L) := by
  intro L
  induction L with
  | nil => simp [sortLex]
  | cons z t ih =>
    simp [sortLex, mem_insertLex, ih, eq_comm]

/-- Elements of `enumFrom n l` carry an index at least `n` and a member of
`l`. -/
theorem mem_enumFrom_facts :
    ∀ (l : List SearchHit) (n : Nat) (p : Nat × SearchHit),
      p ∈ List.enumFrom n l → n ≤ p.1 ∧ p.2 ∈ l := by
  intro l
  induction l with
  | nil => intro n p hp; cases hp
  | cons x t ih =>
    intro n p hp
    rcases List.mem_cons.mp hp with h | h
    · subst h
      exact ⟨Nat.le_refl n, List.mem_cons_self x t⟩
    · obtain ⟨h1, h2⟩ := ih (n + 1) p h
      exact ⟨Nat.le_of_succ_le h1, List.mem_cons_of_mem x h2⟩

/-- On genuine scores with a strictly smaller index for the inserted
element, the specification's ranking order coincides with the comparator's
stable placement rule. -/
theorem lexBefore_eq_le (x y : SearchHit) (k j : Nat) (hx : goodScore x.score)
    (hy : goodScore y.score) (hkj : k < j) :
    lexBefore (k, x) (j, y) = jsLeNum y.score x.score := by
  cases hxs : x.score with
  | nan => rw [hxs] at hx; exact absurd hx (by simp [goodScore])
  | num a b =>
    cases hys : y.score with
    | nan => rw [hys] at hy; exact absurd hy (by simp [goodScore])
    | num c d =>
      rw [hxs] at hx
      rw [hys] at hy
      have hb : (0:ℚ) < (b:ℚ) := by exact_mod_cast hx
      have hd : (0:ℚ) < (d:ℚ) := by exact_mod_cast hy
      simp only [lexBefore, valQ, hxs, hys, jsLeNum]
      by_cases hval : (a:ℚ) / (b:ℚ) = (c:ℚ) / (d:ℚ)
      · rw [if_pos hval]
        have hcross : (a:ℚ) * d = (c:ℚ) * b := (div_eq_div_iff (ne_of_gt hb) (ne_of_gt hd)).mp hval
        have hcrossInt : a * (d:Int) = c * (b:Int) := by exact_mod_cast hcross
        have h1 : decide (k ≤ j) = true := decide_eq_true (Nat.le_of_lt hkj)
        have h2 : decide (c * (b:Int) ≤ a * (d:Int)) = true := by
          refine decide_eq_true ?_
          rw [hcrossInt]
        rw [h1, h2]
      · rw [if_neg hval]
        apply decide_eq_decide.mpr
        rw [div_lt_div_iff₀ hd hb]
        constructor
        · intro h
          have hlt : (c:Int) * b < a * d := by exact_mod_cast h
          exact le_of_lt hlt
        · intro h
          have hne : (c:Int) * b ≠ a * d := by
            intro he
            apply hval
            rw [div_eq_div_iff (ne_of_gt hb) (ne_of_gt hd)]
            exact_mod_cast he.symm
          have hlt : (c:Int) * b < a * d := lt_of_le_of_ne h hne
          exact_mod_cast hlt

/-- Dropping the index tags after a ranking insertion of the element with the
smallest index gives the comparator's stable insertion. -/
theorem insertLex_map_snd (x : SearchHit) (k : Nat) :
    ∀ L : List (Nat × SearchHit), (∀ p ∈ L, k < p.1) → goodScore x.score →
      (∀ p ∈ L, goodScore p.2.score) →
      (insertLex (k, x) L).map Prod.snd = insertByScore x (L.map Prod.snd) := by
  intro L
  induction L with
  | nil => intro _ _ _; simp [insertLex, insertByScore]
  | cons q rest ih =>
    intro hidx hx hgood
    obtain ⟨j, y⟩ := q
    have hj : k < j := hidx (j, y) (List.mem_cons_self _ _)
    have hy : goodScore y.score := hgood (j, y) (List.mem_cons_self _ _)
    have heq := lexBefore_eq_le x y k j hx hy hj
    cases hc : jsLeNum y.score x.score with
    | true =>
      rw [hc] at heq
      simp [insertLex, insertByScore, heq, hc]
    | false =>
      rw [hc] at heq
      simp only [insertLex, insertByScore, heq, hc, Bool.false_eq_true, if_false, List.map_cons]
      refine congrArg (y :: ·) ?_
      refine ih (fun p hp => hidx p (List.mem_cons_of_mem _ hp)) hx
        (fun p hp => hgood p (List.mem_cons_of_mem _ hp))

/-- Dropping the index tags after ranking-sorting the enumerated list gives
the comparator's stable sort: stability makes ties fall back to arrival
order. -/
theorem sortLex_enumFrom_snd :
    ∀ (l : List SearchHit) (k : Nat), (∀ h ∈ l, goodScore h.score) →
      (sortLex (List.enumFrom k l)).map Prod.snd = sortByScore l := by
  intro l
  induction l with
  | nil => intro k _; rfl
  | cons x t ih =>
    intro k hgood
    have hx : goodScore x.score := hgood x (List.mem_cons_self x t)
    have htail : ∀ h ∈ t, goodScore h.score :=
      fun h hh => hgood h (List.mem_cons_of_mem x hh)
    show (insertLex (k, x) (sortLex (List.enumFrom (k + 1) t))).map Prod.snd = sortByScore (x :: t)
    rw [insertLex_map_snd x k (sortLex (List.enumFrom (k + 1) t)) ?hidx hx ?hgood2,
      ih (k + 1) htail]
    · rfl
    case hidx =>
      intro p hp
      have hm := (mem_sortLex p (List.enumFrom (k + 1) t)).mp hp
      have := (mem_enumFrom_facts t (k + 1) p hm).1
      omega
    case hgood2 =>
      intro p hp
      have hm := (mem_sortLex p (List.enumFrom (k + 1) t)).mp hp
      exact htail p.2 (mem_enumFrom_facts t (k + 1) p hm).2

/-- Concrete chunk for the search counterexamples. -/
def cInst : StoredChunk :=
  { text := "Proper installation of the unit".toList, page := 1, embedding := [] }

/-- C3 counterexample.  On the query containing a tab, the code tokenizes by
splitting on the space character only, producing the single term
`"installation\tguide"`, which is absent from the chunk, so the chunk's
computed score is the fraction `0/2` (value `0`); the claim's tokenizer
(splitting on whitespace) yields the tokens `installation` and `guide`, for
which the claimed formula assigns `1 × (1/2) + 0 = 1/2 ≠ 0`. -/
theorem c3_counterexample :
    scoreChunks (searchTermsOf "installation\tguide".toList) none [cInst] =
      some [{ text := cInst.text, page := 1, score := JSNum.num 0 2 }] ∧
    wsTokens "installation\tguide".toList = ["installation".toList, "guide".toList] ∧
    specScore (wsTokens "installation\tguide".toList) (toLowerChars cInst.text) none = 1 / 2 ∧
    JSNum.val (JSNum.num 0 2) = some 0 ∧ (0 : ℚ) ≠ 1 / 2 := by
  refine ⟨by decide, by decide, ?_, ?_, by norm_num⟩
  · have htok : wsTokens "installation\tguide".toList =
        ["installation".toList, "guide".toList] := by decide
    have hc1 : countOcc "installation".toList (toLowerChars cInst.text) = 1 := by decide
    have hc2 : countOcc "guide".toList (toLowerChars cInst.text) = 0 := by decide
    have hf : (["installation".toList, "guide".toList].filter
        (fun t => containsSeq t (toLowerChars cInst.text))) = ["installation".toList] := by decide
    rw [htok]
    simp only [specScore, tfSumSpec, coverageSpec, prevBonusSpec, List.foldl_cons,
      List.foldl_nil, hc1, hc2, hf]
    norm_num
  · simp [JSNum.val]

/-- C3 (amended).  For every stored chunk sequence and every query with at
least one surviving token — surviving tokens obtained by lower-casing the
query, splitting on the space character, and discarding tokens of length at
most 2 — provided every surviving token is free of regular-expression
metacharacters, the search scoring pass assigns each chunk exactly the score
(sum over surviving tokens of the token's non-overlapping occurrence count in
the lower-cased chunk text) × (number of distinct surviving tokens present in
the chunk ÷ total number of surviving tokens) + 0.5 for each surviving token
appearing in the immediately preceding stored chunk. -/
theorem c3_score_formula (chunks : List StoredChunk) (query : List Char)
    (hne : searchTermsOf query ≠ [])
    (hsafe : ∀ t ∈ searchTermsOf query, isRegexSafeTok t = true) :
    (scoreChunks (searchTermsOf query) none chunks).map
        (fun L => L.map (fun it => JSNum.val it.score)) =
      some ((specScores (searchTermsOf query) none chunks).map some) := by
  refine scoreChunks_eq_spec (searchTermsOf query) hne ?_ chunks none
  intro t ht
  refine ⟨hsafe t ht, ?_⟩
  have := searchTermsOf_long query t ht
  intro h0
  rw [h0] at this
  simp at this

/-- Concrete chunk for the C3 witness. -/
def cPump : StoredChunk :=
  { text := "Prime the pump before the valve opens".toList, page := 4, embedding := [] }

/-- Witness for the amended C3 at a concrete query and store. -/
theorem c3_witness :
    (scoreChunks (searchTermsOf "pump valve".toList) none [cPump]).map
        (fun L => L.map (fun it => JSNum.val it.score)) =
      some ((specScores (searchTermsOf "pump valve".toList) none [cPump]).map some) :=
  c3_score_formula [cPump] "pump valve".toList (by decide) (by decide)

/-- C4 (amended).  For every stored chunk sequence, query, and `topK`: when
`vectorStore.search` returns a hit list at all, every returned hit has a
strictly positive score, the list is exactly the specification ranking
(descending score, ties broken by original arrival order, truncated to
`topK`), and its length is at most `topK`; and for a query whose surviving
tokens are all regex-metacharacter-free (so the regex compilation cannot
throw) and occur in no stored chunk, search returns the empty list. -/
theorem c4_ranking (chunks : List StoredChunk) (query : List Char) (topK : Nat)
    (hits : List SearchHit) (h : vectorSearch chunks query topK = some hits) :
    (∀ ht ∈ hits, ∃ q : ℚ, JSNum.val ht.score = some q ∧ 0 < q) ∧
    specRankedSearch chunks query topK = some hits ∧
    hits.length ≤ topK ∧
    ((∀ t ∈ searchTermsOf query, isRegexSafeTok t = true) →
      (∀ t ∈ searchTermsOf query, ∀ c ∈ chunks, containsSeq t (toLowerChars c.text) = false) →
      vectorSearch chunks query topK = some []) := by
  cases hs : scoreChunks (searchTermsOf query) none chunks with
  | none => rw [vectorSearch, hs] at h; cases h
  | some scored =>
    rw [vectorSearch, hs] at h
    simp only [Option.some.injEq] at h
    have hposden := scoreChunks_posDen (searchTermsOf query) chunks none scored hs
    have hgoodK : ∀ it ∈ scored.filter (fun it => jsGtZero it.score), goodScore it.score := by
      intro it hit
      have hmem := List.mem_filter.mp hit
      exact goodScore_of (hposden it hmem.1) hmem.2
    refine ⟨?_, ?_, ?_, ?_⟩
    · intro ht hht
      rw [← h] at hht
      have h1 : ht ∈ sortByScore (scored.filter (fun it => jsGtZero it.score)) :=
        List.mem_of_mem_take hht
      have h2 := (mem_sortByScore ht _).mp h1
      have hg := hgoodK ht h2
      have hfz := (List.mem_filter.mp h2).2
      cases hsc : ht.score with
      | nan => rw [hsc] at hg; exact absurd hg (by simp [goodScore])
      | num n d =>
        rw [hsc] at hg hfz
        have hn : (0:Int) < n := of_decide_eq_true (by simpa [jsGtZero] using hfz)
        refine ⟨(n:ℚ) / (d:ℚ), by simp [JSNum.val], ?_⟩
        apply div_pos
        · exact_mod_cast hn
        · exact_mod_cast hg
    · rw [specRankedSearch, hs]
      refine congrArg some ?_
      rw [specRanked, sortLex_enumFrom_snd _ 0 hgoodK, h]
    · rw [← h]
      exact List.length_take_le topK _
    · intro hsafe habs
      obtain ⟨L, hL, hz⟩ := scoreChunks_no_match (searchTermsOf query) hsafe chunks none habs
        (fun t ht p hp => Option.noConfusion hp)
      rw [vectorSearch, hL]
      have hfil : L.filter (fun it => jsGtZero it.score) = [] := filter_eq_nil_of_false _ L hz
      show some ((sortByScore (L.filter (fun it => jsGtZero it.score))).take topK) = some []
      rw [hfil]
      simp [sortByScore]

/-- Concrete chunk with no regex metacharacters, for the invalid-regex
counterexamples. -/
def cPlain : StoredChunk := { text := "hello world sample".toList, page := 1, embedding := [] }

/-- C4 counterexample.  The query `"((("` has a single surviving token that
occurs in no stored chunk, yet over a non-empty store `search` throws
(`new RegExp("(((")` is invalid regex syntax) instead of returning the empty
list. -/
theorem c4_counterexample :
    searchTermsOf "(((".toList = ["(((".toList] ∧
    containsSeq "(((".toList (toLowerChars cPlain.text) = false ∧
    vectorSearch [cPlain] "(((".toList 5 = none := by
  exact ⟨by decide, by decide, by decide⟩

/-- Valve chunks: chunks 1 and 3 tie with score 1, chunk 2 gets only the
previous-chunk bonus 0.5. -/
def cv1 : StoredChunk := { text := "the valve must be closed".toList, page := 1, embedding := [] }

/-- Middle chunk without the query token. -/
def cv2 : StoredChunk :=
  { text := "unrelated maintenance text here".toList, page := 2, embedding := [] }

/-- Last chunk, tying with the first. -/
def cv3 : StoredChunk := { text := "open the valve slowly now".toList, page := 3, embedding := [] }

/-- The hit list `search` returns on the valve store: the two tied chunks in
arrival order, then the bonus-only chunk. -/
def hitsV : List SearchHit :=
  [{ text := cv1.text, page := 1, score := JSNum.num 2 2 },
   { text := cv3.text, page := 3, score := JSNum.num 2 2 },
   { text := cv2.text, page := 2, score := JSNum.num 1 2 }]

/-- Witness for the amended C4 at a concrete store with a score tie. -/
theorem c4_witness :
    vectorSearch [cv1, cv2, cv3] "valve".toList 5 = some hitsV ∧
    specRankedSearch [cv1, cv2, cv3] "valve".toList 5 = some hitsV ∧
    hitsV.length ≤ 5 := by
  refine ⟨by decide, ?_, ?_⟩
  · exact (c4_ranking [cv1, cv2, cv3] "valve".toList 5 hitsV (by decide)).2.1
  · exact (c4_ranking [cv1, cv2, cv3] "valve".toList 5 hitsV (by decide)).2.2.1

/-- Store holding only the metacharacter-free chunk, for C9. -/
def store9 : VectorStoreState :=
  { chunks := [cPlain], embeddings := [[]],
    metadata := { currentFileName := "m.pdf".toList, pageCount := 1, totalChunks := 1 } }

/-- C9.  Search is not total over query strings: the token `c++` survives
tokenization, its compilation as a regular expression fails (`new
RegExp("c++")` throws — a quantifier with nothing to repeat), so over a
non-empty store `search` throws instead of returning a hit list, and the
`/search` handler answers with its catch branch (HTTP 500). -/
theorem c9_search_throws_on_invalid_regex :
    "c++".toList ∈ searchTermsOf "learn c++ basics".toList ∧
    vectorSearch [cPlain] "learn c++ basics".toList 5 = none ∧
    observeSearch store9 "learn c++ basics".toList = SearchOutcome.thrown := by
  exact ⟨by decide, by decide, by decide⟩

/-- C10 (amended).  For every stored chunk sequence and `topK`, a query in
which every space-separated token has length at most 2 (the empty query
included) leaves no surviving token, so every chunk's score is `NaN`
(`0/0 = NaN` coverage propagated through the product and sum), `NaN` fails
the `> 0` filter, and `search` returns the empty list without error. -/
theorem c10_short_tokens_give_empty (chunks : List StoredChunk) (query : List Char) (topK : Nat)
    (h : (splitOnSpace (toLowerChars query)).all (fun t => t.length ≤ 2) = true) :
    vectorSearch chunks query topK = some [] ∧
    scoreChunks (searchTermsOf query) none chunks =
      some (chunks.map (fun c => { text := c.text, page := c.page, score := JSNum.nan })) := by
  have hterms : searchTermsOf query = [] := by
    rw [searchTermsOf]
    apply filter_eq_nil_of_false
    intro t ht
    have hle : t.length ≤ 2 := of_decide_eq_true (List.all_eq_true.mp h t ht)
    exact decide_eq_false (by omega)
  constructor
  · rw [vectorSearch, hterms, scoreChunks_nil_terms chunks none]
    have hfil : (chunks.map
        (fun c => ({ text := c.text, page := c.page, score := JSNum.nan } : SearchHit))).filter
          (fun it => jsGtZero it.score) = [] := by
      apply filter_eq_nil_of_false
      intro x hx
      obtain ⟨c, _, hcx⟩ := List.mem_map.mp hx
      rw [← hcx]
      rfl
    show some ((sortByScore ((chunks.map
        (fun c => ({ text := c.text, page := c.page, score := JSNum.nan } : SearchHit))).filter
          (fun it => jsGtZero it.score))).take topK) = some []
    rw [hfil]
    simp [sortByScore]
  · rw [hterms]
    exact scoreChunks_nil_terms chunks none

/-- Chunk whose text contains the space-free sequence `ab\ncd`, for the C10
counterexample. -/
def cWS : StoredChunk := { text := "xx ab\ncd yy".toList, page := 1, embedding := [] }

/-- C10 counterexample.  Every whitespace-separated token of the query
`"ab\ncd"` has length at most 2, yet the code splits on the space character
only, so the single surviving term `ab\ncd` (length 5) matches the stored
chunk and `search` returns a non-empty hit list. -/
theorem c10_counterexample :
    (wsSplit (toLowerChars "ab\ncd".toList)).all (fun t => t.length ≤ 2) = true ∧
    vectorSearch [cWS] "ab\ncd".toList 5 =
      some [{ text := cWS.text, page := 1, score := JSNum.num 2 2 }] ∧
    ([{ text := cWS.text, page := 1, score := JSNum.num 2 2 }] : List SearchHit) ≠ [] := by
  exact ⟨by decide, by decide, by decide⟩

/-- Witness for the amended C10 at a concrete query of short space-separated
tokens over a non-empty store. -/
theorem c10_witness :
    vectorSearch [cWS] "ab cd".toList 7 = some [] ∧
    scoreChunks (searchTermsOf "ab cd".toList) none [cWS] =
      some ([cWS].map (fun c => { text := c.text, page := c.page, score := JSNum.nan })) :=
  c10_short_tokens_give_empty [cWS] "ab cd".toList 7 (by decide)

/-- Chunk-list effect of storing one page. -/
theorem storePageChunks_chunks (embed : List Char → List JSNum) (s : VectorStoreState)
    (p : Nat) (frags : List (List Char)) :
    (storePageChunks embed s p frags).chunks =
      s.chunks ++ (keptPageChunks frags).map
        (fun c => { text := c, page := p, embedding := embed c }) :=
  foldl_addChunk_chunks embed p (keptPageChunks frags) s

/-- The upload's chunk list distributes over a split of the page list. -/
theorem allKeptChunksFrom_append (embed : List Char → List JSNum) :
    ∀ (pre suf : List (List (List Char))) (p : Nat),
      allKeptChunksFrom embed p (pre ++ suf) =
        allKeptChunksFrom embed p pre ++ allKeptChunksFrom embed (p + pre.length) suf := by
  intro pre
  induction pre with
  | nil => intro suf p; simp [allKeptChunksFrom]
  | cons f rest ih =>
    intro suf p
    show (keptPageChunks f).map (fun c => { text := c, page := p, embedding := embed c }) ++
        allKeptChunksFrom embed (p + 1) (rest ++ suf) = _
    rw [ih suf (p + 1)]
    have he : p + 1 + rest.length = p + (f :: rest).length := by simp; omega
    rw [he]
    show _ = ((keptPageChunks f).map (fun c => { text := c, page := p, embedding := embed c }) ++
        allKeptChunksFrom embed (p + 1) rest) ++ allKeptChunksFrom embed (p + (f :: rest).length) suf
    rw [List.append_assoc]

/-- Every state visible inside the page loop extends the base state with the
kept chunks of a prefix of the remaining pages. -/
theorem pageStatesGo_chunks (embed : List Char → List JSNum) :
    ∀ (pages : List (List (List Char))) (s : VectorStoreState) (p : Nat),
      ∀ st ∈ pageStatesGo embed s p pages,
        ∃ pre suf, pages = pre ++ suf ∧
          st.chunks = s.chunks ++ allKeptChunksFrom embed p pre := by
  intro pages
  induction pages with
  | nil => intro s p st hst; cases hst
  | cons frags rest ih =>
    intro s p st hst
    rcases List.mem_cons.mp hst with h | h
    · subst h
      refine ⟨[frags], rest, rfl, ?_⟩
      rw [storePageChunks_chunks]
      simp [allKeptChunksFrom]
    · obtain ⟨pre, suf, hps, hch⟩ := ih (storePageChunks embed s p frags) (p + 1) st h
      refine ⟨frags :: pre, suf, by rw [hps]; rfl, ?_⟩
      rw [hch, storePageChunks_chunks]
      simp [allKeptChunksFrom, List.append_assoc]

/-- The last-with-default of a list is the default or a member. -/
theorem getLastD_mem_or {α : Type} : ∀ (l : List α) (d : α),
    l.getLastD d = d ∨ l.getLastD d ∈ l := by
  intro l
  induction l with
  | nil => intro d; left; rfl
  | cons b t ih =>
    intro d
    rw [List.getLastD_cons]
    rcases ih b with h | h
    · right
      rw [h]
      exact List.mem_cons_self b t
    · right
      exact List.mem_cons_of_mem b h

/-- A chunk list equal to the kept chunks of a page-list prefix is a prefix
of the whole upload's chunk list. -/
theorem chunks_take_of_split (embed : List Char → List JSNum)
    (pages pre suf : List (List (List Char))) (cs : List StoredChunk)
    (hps : pages = pre ++ suf) (hch : cs = allKeptChunksFrom embed 1 pre) :
    cs = (allKeptChunksFrom embed 1 pages).take cs.length := by
  subst hps
  rw [allKeptChunksFrom_append, hch, List.take_left]

/-- C8 (amended).  The upload is not atomic, but because `clear()` precedes
every insertion a concurrent reader never observes a mix of two documents'
chunks: every store state visible at an `await` boundary of `/upload` is
either the untouched prior state (before the handler's first synchronous
segment) or carries a prefix of the new document's final chunk list —
possibly empty, in which case the `/search` handler fails with its
no-content error. -/
theorem c8_no_document_mixing (embed : List Char → List JSNum) (prior : VectorStoreState)
    (fileName : List Char) (pages : List (List (List Char))) (st : VectorStoreState)
    (h : st ∈ uploadVisibleStates embed prior fileName pages) :
    st = prior ∨ st.chunks = (allKeptChunksFrom embed 1 pages).take st.chunks.length := by
  set metaSet : VectorStoreState :=
    { clearedStore with
      metadata :=
        { currentFileName := fileName, pageCount := pages.length, totalChunks := 0 } } with hm
  set mids := pageStatesGo embed metaSet 1 pages with hmids
  set sLast := mids.getLastD metaSet with hlast
  have hexp : uploadVisibleStates embed prior fileName pages =
      prior :: clearedStore :: metaSet ::
        (mids ++
          [{ sLast with metadata := { sLast.metadata with totalChunks := sLast.chunks.length } }]) :=
    rfl
  rw [hexp] at h
  simp only [List.mem_cons, List.mem_append, List.mem_singleton] at h
  rcases h with h | h | h | h | h | h
  · exact Or.inl h
  · right
    rw [h]
    rfl
  · right
    rw [h]
    rfl
  · right
    obtain ⟨pre, suf, hps, hch⟩ := pageStatesGo_chunks embed pages metaSet 1 st h
    refine chunks_take_of_split embed pages pre suf st.chunks hps ?_
    simpa [hm] using hch
  · right
    rw [h]
    show sLast.chunks = (allKeptChunksFrom embed 1 pages).take sLast.chunks.length
    rcases getLastD_mem_or mids metaSet with hl | hl
    · rw [← hlast] at hl
      rw [hl]
      rfl
    · rw [← hlast] at hl
      obtain ⟨pre, suf, hps, hch⟩ := pageStatesGo_chunks embed pages metaSet 1 sLast hl
      refine chunks_take_of_split embed pages pre suf sLast.chunks hps ?_
      simpa [hm] using hch
  · cases h

/-- First page fragment of the new document (66 characters, kept). -/
def pumpFrag1 : List Char :=
  "The pump assembly must be primed before initial operation begins.".toList

/-- Second page fragment of the new document (65 characters, kept). -/
def pumpFrag2 : List Char :=
  "Check the pump seals for wear at every maintenance interval now.".toList

/-- Prior document state loaded before the concurrent upload. -/
def priorC : VectorStoreState :=
  { chunks := [{ text := "old device manual section about power supply".toList, page := 1,
                 embedding := [] }],
    embeddings := [[]],
    metadata := { currentFileName := "old.pdf".toList, pageCount := 1, totalChunks := 1 } }

/-- Per-page fragment lists of the new two-page document. -/
def pagesC : List (List (List Char)) := [[pumpFrag1], [pumpFrag2]]

/-- The store state visible after page 1 of the new document is inserted and
page 2 is still awaited (the fourth `await`-boundary state of the upload). -/
def midC8 : VectorStoreState :=
  (uploadVisibleStates embedNil priorC "new.pdf".toList pagesC).getD 3 clearedStore

/-- C8 counterexample.  A `/search` for "pump" issued at the mid-upload state
succeeds over the half-populated store (one of the two new chunks present,
metadata already replaced): the observation is neither the prior document's
complete view nor the no-content error, refuting the claimed atomicity. -/
theorem c8_counterexample :
    midC8 ∈ uploadVisibleStates embedNil priorC "new.pdf".toList pagesC ∧
    observeSearch midC8 "pump".toList =
      SearchOutcome.results [{ text := pumpFrag1, page := 1, score := JSNum.num 2 2 }] ∧
    observeSearch priorC "pump".toList = SearchOutcome.results [] ∧
    observeSearch midC8 "pump".toList ≠ observeSearch priorC "pump".toList ∧
    observeSearch midC8 "pump".toList ≠ SearchOutcome.noContent ∧
    midC8.chunks ≠ priorC.chunks ∧
    midC8.chunks ≠ allKeptChunksFrom embedNil 1 pagesC := by
  exact ⟨by decide, by decide, by decide, by decide, by decide, by decide, by decide⟩

/-- Witness for the amended C8 at the concrete mid-upload state: its chunk
list is a prefix of the new document's chunk list (no mixing with the prior
document). -/
theorem c8_witness :
    midC8 = priorC ∨
    midC8.chunks = (allKeptChunksFrom embedNil 1 pagesC).take midC8.chunks.length :=
  c8_no_document_mixing embedNil priorC "new.pdf".toList pagesC midC8 (by decide)

/-- Witness for C5 at a concrete input. -/
theorem c5_witness :
    (mergeProcessedChunks rsW).title = "Technical Manual Summary" ∧
    (mergeProcessedChunks rsW).prerequisites =
      setDedup ((rsW.map (fun c => c.key_points)).flatten) ∧
    (mergeProcessedChunks rsW).steps.Nodup :=
  ⟨(c5_merge_concatenates_and_dedups rsW).1, (c5_merge_concatenates_and_dedups rsW).2.1,
   (c5_merge_concatenates_and_dedups rsW).2.2.2.2.2.2.1⟩
